import Mathlib

/-!
Verification of the MLIR bytecode reader
(`mlir/lib/Bytecode/Reader/BytecodeReader.cpp`).

The C++ source is shallowly embedded: byte buffers are `List Nat` (each
element a byte value `< 256`), machine integers are `Nat` with explicit
`% 2 ^ 64` where `size_t`/`uint64_t` overflow matters, and fallible
parsing primitives return `Except String` carrying the emitted diagnostic
text.  Places where the C++ has undefined behaviour (out-of-bounds
`std::vector::back`, a failed `assert`) are modelled by an outer `Option`
whose `none` marks that the run reached undefined behaviour.
-/

namespace BytecodeReaderModel

/-- Wrapping subtraction on `size_t`-sized unsigned values: C++ computes
`a - b` modulo `2 ^ 64`.  Defined for `b ≤ 2 ^ 64`. -/
def usub64 (a b : Nat) : Nat :=
  (a + (2 ^ 64 - b)) % 2 ^ 64

--===----------------------------------------------------------------------===--
-- EncodingReader
--===----------------------------------------------------------------------===--

/-- Error text of `EncodingReader::parseByte` at end of data. -/
def parseByteErr : String :=
  "attempting to parse a byte at the end of the bytecode"

/-- Error text of `EncodingReader::parseBytes` when `length > size()`. -/
def parseBytesErr (length remaining : Nat) : String :=
  "attempting to parse " ++ (toString length) ++ " bytes when only " ++
    (toString remaining) ++ " remain"

/-- `EncodingReader::parseByte`: take one byte off the stream. -/
def parseByte (bytes : List Nat) : Except String (Nat × List Nat) :=
  match bytes with
  | [] => .error parseByteErr
  | b :: rest => .ok (b, rest)

/-- Assemble `n` bytes in little-endian order into one integer (the effect
of `memcpy` into consecutive low-order bytes of a little-endian word). -/
def assembleLE : Nat → List Nat → Nat
  | 0, _ => 0
  | _ + 1, [] => 0
  | n + 1, b :: rest => b + 256 * assembleLE n rest

/-- `EncodingReader::parseBytes` specialised to reading `n` bytes as a
little-endian integer (as `parseVarInt` and `parseMultiByteVarInt` use it).
The length check and its diagnostic mirror the C++ exactly. -/
def parseBytesLE (n : Nat) (bytes : List Nat) : Except String (Nat × List Nat) :=
  if n ≤ bytes.length then .ok (assembleLE n bytes, bytes.drop n)
  else .error (parseBytesErr n bytes.length)

/-- Trailing-zero count of the marker byte,
`llvm::countTrailingZeros<uint32_t>` with 32 bits of fuel. -/
def ctzAux : Nat → Nat → Nat
  | 0, _ => 0
  | fuel + 1, b => if b % 2 = 1 then 0 else ctzAux fuel (b / 2) + 1

/-- `countTrailingZeros` on a 32-bit value (the argument is a byte here). -/
def ctz32 (b : Nat) : Nat := ctzAux 32 b

/-- `EncodingReader::parseMultiByteVarInt`: `result` already holds the
first byte; read `ctz` more bytes into the higher-order byte positions and
shift out the `numBytes + 1` marker bits. -/
def parseMultiByteVarInt (result : Nat) (bytes : List Nat) :
    Except String (Nat × List Nat) :=
  let numBytes := ctz32 result
  match parseBytesLE numBytes bytes with
  | .error e => .error e
  | .ok (w, rest) => .ok ((result + 256 * w) / 2 ^ (numBytes + 1), rest)

/-- `EncodingReader::parseVarInt`. -/
def parseVarInt (bytes : List Nat) : Except String (Nat × List Nat) :=
  match parseByte bytes with
  | .error e => .error e
  | .ok (result, rest) =>
    if result % 2 = 1 then .ok (result / 2, rest)
    else if result = 0 then parseBytesLE 8 rest
    else parseMultiByteVarInt result rest

/-- `EncodingReader::parseVarIntWithFlag`: the low bit of the decoded
value is the flag, the rest is shifted down by one. -/
def parseVarIntWithFlag (bytes : List Nat) :
    Except String ((Nat × Bool) × List Nat) :=
  match parseVarInt bytes with
  | .error e => .error e
  | .ok (result, rest) => .ok ((result / 2, result % 2 = 1), rest)

--===----------------------------------------------------------------------===--
-- Varint encoder (the writer is not part of this repository's sources)
--===----------------------------------------------------------------------===--

/-- Little-endian byte list of the low `n` bytes of `v`. -/
def toLEBytes : Nat → Nat → List Nat
  | 0, _ => []
  | n + 1, v => v % 256 :: toLEBytes n (v / 256)

/-- Modelled from the spec: the minimal length category of the
variable-length integer encoding — `1` byte if `x < 2 ^ 7`, `2` bytes if
`x < 2 ^ 14`, … and `9` bytes if `x ≥ 2 ^ 56`. -/
def minVarIntLen (x : Nat) : Nat :=
  if x < 2 ^ 7 then 1
  else if x < 2 ^ 14 then 2
  else if x < 2 ^ 21 then 3
  else if x < 2 ^ 28 then 4
  else if x < 2 ^ 35 then 5
  else if x < 2 ^ 42 then 6
  else if x < 2 ^ 49 then 7
  else if x < 2 ^ 56 then 8
  else 9

/-- Modelled from the spec: the `m`-byte encoding of `x` (for
`1 ≤ m ≤ 8` the value is shifted up by `m` bits and the marker bit
`2 ^ (m - 1)` is set; for `m = 9` a zero marker byte is followed by the
eight little-endian value bytes). -/
def encodeVarIntLen (m x : Nat) : List Nat :=
  if m = 9 then 0 :: toLEBytes 8 x
  else toLEBytes m (x * 2 ^ m + 2 ^ (m - 1))

/-- Modelled from the spec: the minimal-length variable-length encoding. -/
def encodeVarInt (x : Nat) : List Nat :=
  encodeVarIntLen (minVarIntLen x) x

--===----------------------------------------------------------------------===--
-- String section (`BytecodeReader::parseStringSection`)
--===----------------------------------------------------------------------===--

/-- An entry of the parsed string table: `StringRef(sectionData.data() +
offset, length)` is modelled by the pair `(offset, length)` of indices into
the section payload (`length` is the stored size minus one, computed in
`size_t` arithmetic, so it excludes the trailing null byte). -/
structure StringEntry where
  offset : Nat
  length : Nat
deriving DecidableEq

/-- Error text for an oversized string entry. -/
def stringSizeErr : String := "string size exceeds the available data size"

/-- Error text for leftover bytes between the size list and the string
data. -/
def stringTrailingErr : String :=
  "unexpected trailing data between the offsets for strings and their data"

/-- The loop of `parseStringSection`: one iteration per string, filling the
table from the last index to the first (the C++ iterates
`llvm::reverse(strings)`), so the recursive call's entries precede this
iteration's entry in table order. -/
def parseStrLoop :
    Nat → Nat → Nat → List Nat →
      Except String (List StringEntry × Nat × Nat × List Nat)
  | 0, stringDataEndOffset, totalStringDataSize, bytes =>
    .ok ([], stringDataEndOffset, totalStringDataSize, bytes)
  | count + 1, stringDataEndOffset, totalStringDataSize, bytes =>
    match parseVarInt bytes with
    | .error e => .error e
    | .ok (stringSize, rest) =>
      if stringDataEndOffset < stringSize then .error stringSizeErr
      else
        let stringOffset := stringDataEndOffset - stringSize
        match parseStrLoop count stringOffset (totalStringDataSize + stringSize) rest with
        | .error e => .error e
        | .ok (entries, endOff, total, rest2) =>
          .ok (entries ++ [⟨stringOffset, usub64 stringSize 1⟩], endOff, total, rest2)

/-- `BytecodeReader::parseStringSection`. -/
def parseStringSection (sectionData : List Nat) :
    Except String (List StringEntry) :=
  match parseVarInt sectionData with
  | .error e => .error e
  | .ok (numStrings, rest) =>
    match parseStrLoop numStrings sectionData.length 0 rest with
    | .error e => .error e
    | .ok (entries, _, totalStringDataSize, rest2) =>
      if rest2.length ≠ totalStringDataSize then .error stringTrailingErr
      else .ok entries

/-- Concatenation of minimal varint encodings. -/
def encodeVarIntList : List Nat → List Nat
  | [] => []
  | t :: ts => encodeVarInt t ++ encodeVarIntList ts

/-- The walk of the size list succeeds when every size fits below the
running end offset. -/
def sizesFit : Nat → List Nat → Bool
  | _, [] => true
  | endOff, t :: ts => decide (t ≤ endOff) && sizesFit (endOff - t) ts

/-- The table produced by a successful walk of the size list. -/
def mkEntries : Nat → List Nat → List StringEntry
  | _, [] => []
  | endOff, t :: ts =>
    mkEntries (endOff - t) ts ++ [⟨endOff - t, usub64 t 1⟩]

--===----------------------------------------------------------------------===--
-- Values, value scopes, and the forward-reference pool
--===----------------------------------------------------------------------===--

/-- A parsed SSA value: either the result of a real operation or block
argument (identified by a ghost id), or the result of a placeholder
operation created for a forward reference. -/
inductive MValue where
  | real (id : Nat)
  | fwd (id : Nat)
deriving DecidableEq

/-- `BytecodeReader::ValueScope`: the value slots of one
isolated-from-above scope and the per-region next-value-id stack.  The C++
`nextValueIDs` vector is stored most recent first (`push_back` becomes
`cons`, `back()` becomes the head). -/
structure ValueScope where
  values : List (Option MValue)
  nextValueIDs : List Nat
deriving DecidableEq

/-- The value-related state of `BytecodeReader`.  All C++ stacks
(`valueScopes`, and the two placeholder blocks `forwardRefOps` /
`openForwardRefOps`, whose ends receive every insertion) are stored most
recent first.  `useSites` is a ghost log of every operand slot handed out
by `parseOperand`, recording the value index read and the value the slot
currently holds; `replaceAllUsesWith` acts on it. -/
structure IRValueState where
  valueScopes : List ValueScope
  forwardRefOps : List Nat
  openForwardRefOps : List Nat
  nextForwardRefId : Nat
  useSites : List (Nat × MValue)
deriving DecidableEq

/-- State at `BytecodeReader` construction time. -/
def emptyIRValueState : IRValueState := ⟨[], [], [], 0, []⟩

/-- Error text of `resolveEntry` for the value table. -/
def invalidValueErr (idx : Nat) : String :=
  "invalid value index: " ++ toString idx

/-- `BytecodeReader::parseOperand` after its index varint has been read:
resolve the index in the top scope's values; an unset slot makes
`createForwardRef` reuse the most recently freed placeholder (else mint a
fresh one), move it to the end of `forwardRefOps` and return its result,
which is also stored in the slot.  `none` models the undefined behaviour
of `valueScopes.back()` on an empty stack. -/
def parseOperandIdx (s : IRValueState) (idx : Nat) :
    Option (Except String (MValue × IRValueState)) :=
  match s.valueScopes with
  | [] => none
  | sc :: restScopes =>
    match sc.values.get? idx with
    | none => some (.error (invalidValueErr idx))
    | some (some v) =>
      some (.ok (v, { s with useSites := s.useSites ++ [(idx, v)] }))
    | some none =>
      let fwdData : Nat × List Nat × Nat :=
        match s.openForwardRefOps with
        | f :: freeRest => (f, freeRest, s.nextForwardRefId)
        | [] => (s.nextForwardRefId, [], s.nextForwardRefId + 1)
      let v := MValue.fwd fwdData.1
      some (.ok (v,
        { valueScopes :=
            { sc with values := sc.values.set idx (some v) } :: restScopes,
          forwardRefOps := fwdData.1 :: s.forwardRefOps,
          openForwardRefOps := fwdData.2.1,
          nextForwardRefId := fwdData.2.2,
          useSites := s.useSites ++ [(idx, v)] }))

/-- Detail part of the `defineValues` range diagnostic (`values.size() - 1`
is computed in `size_t` arithmetic). -/
def valueRangeErrDetail (valueID valueIDEnd valuesLen : Nat) : String :=
  ", got [" ++ (toString valueID ++ (", " ++ (toString valueIDEnd ++
    ("), but the maximum index was " ++ toString (usub64 valuesLen 1)))))

/-- The `defineValues` range diagnostic. -/
def valueRangeErr (valueID valueIDEnd valuesLen : Nat) : String :=
  "value index range was outside of the expected range for the parent region"
    ++ valueRangeErrDetail valueID valueIDEnd valuesLen

/-- The assignment loop of `BytecodeReader::defineValues`: one iteration
per new value; `std::exchange` swaps the slot, and a swapped-out
placeholder has all its uses rewritten to the new value and is moved to
the end of the free pool.  `none` models an out-of-range vector access or
the failed assert "value index was already defined?". -/
def defineValuesGo (values : List (Option MValue))
    (useSites : List (Nat × MValue)) (active free : List Nat) (valueID : Nat) :
    List Nat →
      Option (List (Option MValue) × List (Nat × MValue) × List Nat × List Nat × Nat)
  | [] => some (values, useSites, active, free, valueID)
  | r :: rs =>
    match values.get? valueID with
    | none => none
    | some old =>
      let newValue := MValue.real r
      let values2 := values.set valueID (some newValue)
      match old with
      | none => defineValuesGo values2 useSites active free (valueID + 1) rs
      | some (MValue.fwd f) =>
        defineValuesGo values2
          (useSites.map fun p => if p.2 = MValue.fwd f then (p.1, newValue) else p)
          (active.erase f) (f :: free) (valueID + 1) rs
      | some (MValue.real _) => none

/-- `BytecodeReader::defineValues`: check the id range against the top
scope, then assign the values.  `none` models `valueScopes.back()` or
`nextValueIDs.back()` on an empty stack. -/
def defineValues (s : IRValueState) (newValues : List Nat) :
    Option (Except String IRValueState) :=
  match s.valueScopes with
  | [] => none
  | sc :: restScopes =>
    match sc.nextValueIDs with
    | [] => none
    | valueID :: restIDs =>
      if valueID + newValues.length > sc.values.length then
        some (.error
          (valueRangeErr valueID (valueID + newValues.length) sc.values.length))
      else
        match defineValuesGo sc.values s.useSites s.forwardRefOps
            s.openForwardRefOps valueID newValues with
        | none => none
        | some (values2, useSites2, active2, free2, valueID2) =>
          some (.ok
            { valueScopes := ⟨values2, valueID2 :: restIDs⟩ :: restScopes,
              forwardRefOps := active2,
              openForwardRefOps := free2,
              nextForwardRefId := s.nextForwardRefId,
              useSites := useSites2 })

/-- One value-relevant event while reading a region body: an operand
reference by value index, or an operation defining result values
(identified by ghost ids). -/
inductive IREvent where
  | useOperand (idx : Nat)
  | defineOp (results : List Nat)
deriving DecidableEq

/-- Error text of the end-of-parse check of `parseIRSection` (sic — the
garbled wording is the code's own). -/
def fwdRefErr : String :=
  "not all forward unresolved forward operand references"

/-- The value state after `parseRegion` has pushed one scope reserving
`numValues` slots (`nextValueIDs.push_back(values.size())`, then
`values.resize(values.size() + numValues)` — fresh slots hold null). -/
def initIRValueState (numValues : Nat) : IRValueState :=
  ⟨[⟨List.replicate numValues none, [0]⟩], [], [], 0, []⟩

/-- Apply one event to the value state. -/
def stepIR (s : IRValueState) : IREvent → Option (Except String IRValueState)
  | .useOperand idx =>
    match parseOperandIdx s idx with
    | none => none
    | some (.error e) => some (.error e)
    | some (.ok (_, s2)) => some (.ok s2)
  | .defineOp results => defineValues s results

/-- Apply a sequence of events, stopping at the first failure. -/
def runIRCore (s : IRValueState) :
    List IREvent → Option (Except String IRValueState)
  | [] => some (.ok s)
  | e :: es =>
    match stepIR s e with
    | none => none
    | some (.error msg) => some (.error msg)
    | some (.ok s2) => runIRCore s2 es

/-- Operand uses and value definitions of a region body followed by the
end-of-parse check of `parseIRSection`: when any placeholder is still in
the active pool the parse fails with `fwdRefErr`. -/
def runIREvents (numValues : Nat) (events : List IREvent) :
    Option (Except String IRValueState) :=
  match runIRCore (initIRValueState numValues) events with
  | none => none
  | some (.error e) => some (.error e)
  | some (.ok s) =>
    if s.forwardRefOps.isEmpty then some (.ok s) else some (.error fwdRefErr)

/-- The single-scope well-formedness invariant maintained by the value
manager: one scope with one open region, defined slots below the next id
are real values, placeholders sit in exactly one slot each and in the
active pool, the pools are duplicate-free and disjoint, ids are below the
fresh-id counter, and every recorded use site mirrors its slot. -/
def ScopeInv (s : IRValueState) : Prop :=
  ∃ sc n, s.valueScopes = [sc] ∧ sc.nextValueIDs = [n] ∧
    n ≤ sc.values.length ∧
    (∀ i r, sc.values.get? i = some (some (.real r)) → i < n) ∧
    (∀ i, i < n → ∃ r, sc.values.get? i = some (some (.real r))) ∧
    (∀ i f, sc.values.get? i = some (some (.fwd f)) → f ∈ s.forwardRefOps) ∧
    (∀ i j f, sc.values.get? i = some (some (.fwd f)) →
      sc.values.get? j = some (some (.fwd f)) → i = j) ∧
    s.forwardRefOps.Nodup ∧ s.openForwardRefOps.Nodup ∧
    (∀ f, f ∈ s.forwardRefOps → f ∉ s.openForwardRefOps) ∧
    (∀ f, f ∈ s.forwardRefOps ∨ f ∈ s.openForwardRefOps →
      f < s.nextForwardRefId) ∧
    (∀ idx v, (idx, v) ∈ s.useSites → sc.values.get? idx = some (some v))

--===----------------------------------------------------------------------===--
-- Block headers and the IR-section set-up
--===----------------------------------------------------------------------===--

/-- A type-resolution failure while reading block arguments (stands for
whichever diagnostic the attribute/type resolver emitted). -/
def typeResolveErr (idx : Nat) : String :=
  "invalid Type index: " ++ toString idx

/-- A location-resolution failure while reading block arguments. -/
def locResolveErr (idx : Nat) : String :=
  "invalid Attribute index: " ++ toString idx

/-- The argument loop of `parseBlockArguments`: `numArgs` pairs of a type
index and a location attribute index, each resolved through the host
tables (the resolvers are external collaborators, passed as
parameters). -/
def parseArgPairs (resolveType resolveLoc : Nat → Bool) :
    Nat → List Nat → Except String (List Nat)
  | 0, bytes => .ok bytes
  | n + 1, bytes =>
    match parseVarInt bytes with
    | .error e => .error e
    | .ok (typeIdx, rest) =>
      if resolveType typeIdx then
        match parseVarInt rest with
        | .error e => .error e
        | .ok (locIdx, rest2) =>
          if resolveLoc locIdx then parseArgPairs resolveType resolveLoc n rest2
          else .error (locResolveErr locIdx)
      else .error (typeResolveErr typeIdx)

/-- `BytecodeReader::parseBlockArguments`: the argument count, the typed
arguments, then `defineValues` on the block's (ghost ids
`argIdBase, argIdBase + 1, …`) arguments. -/
def parseBlockArguments (resolveType resolveLoc : Nat → Bool) (argIdBase : Nat)
    (s : IRValueState) (bytes : List Nat) :
    Option (Except String (IRValueState × List Nat)) :=
  match parseVarInt bytes with
  | .error e => some (.error e)
  | .ok (numArgs, rest) =>
    match parseArgPairs resolveType resolveLoc numArgs rest with
    | .error e => some (.error e)
    | .ok rest2 =>
      match defineValues s (List.range' argIdBase numArgs) with
      | none => none
      | some (.error e) => some (.error e)
      | some (.ok s2) => some (.ok (s2, rest2))

/-- `BytecodeReader::parseBlock`: the `(numOpsRemaining, hasArgs)` header,
then the block arguments when the flag is set. -/
def parseBlock (resolveType resolveLoc : Nat → Bool) (argIdBase : Nat)
    (s : IRValueState) (bytes : List Nat) :
    Option (Except String (Nat × IRValueState × List Nat)) :=
  match parseVarIntWithFlag bytes with
  | .error e => some (.error e)
  | .ok ((numOpsRemaining, hasArgs), rest) =>
    if hasArgs then
      match parseBlockArguments resolveType resolveLoc argIdBase s rest with
      | none => none
      | some (.error e) => some (.error e)
      | some (.ok (s2, rest2)) => some (.ok (numOpsRemaining, s2, rest2))
    else some (.ok (numOpsRemaining, s, rest))

/-- The set-up sequence of `BytecodeReader::parseIRSection` (before its
main loop), in the code's order: the module frame is pushed and the module
body's block header is parsed FIRST, and only then is the initial
`ValueScope` pushed; the top-level `RegionReadState::numValues` keeps its
default value `0`, so that scope reserves no value slots. -/
def parseIRSectionStart (resolveType resolveLoc : Nat → Bool)
    (bytes : List Nat) :
    Option (Except String (Nat × IRValueState × List Nat)) :=
  match parseBlock resolveType resolveLoc 0 emptyIRValueState bytes with
  | none => none
  | some (.error e) => some (.error e)
  | some (.ok (numOps, s, rest)) =>
    some (.ok (numOps, { s with valueScopes := ⟨[], [0]⟩ :: s.valueScopes }, rest))

--===----------------------------------------------------------------------===--
-- Dialect entries (`BytecodeDialect::load`)
--===----------------------------------------------------------------------===--

/-- `BytecodeDialect`: `dialect = none` means no load was attempted yet,
`some none` a failed load (tolerated when unregistered dialects are
allowed), `some (some h)` the loaded handle. -/
structure BytecodeDialect where
  dialect : Option (Option Nat)
  name : String
deriving DecidableEq

/-- The unknown-dialect diagnostic of `BytecodeDialect::load`. -/
def unknownDialectErr (name : String) : String :=
  "dialect '" ++ (name ++ ("' is unknown. If this is intended, please call "
    ++ ("allowUnregisteredDialects() on the MLIRContext, or use "
      ++ "-allow-unregistered-dialect with the MLIR tool used.")))

/-- The outcome of one `BytecodeDialect::load` call: the (possibly
updated) entry, the emitted diagnostic on failure, and how many times
`MLIRContext::getOrLoadDialect` was consulted. -/
structure LoadResult where
  entry : BytecodeDialect
  err : Option String
  hostLoads : Nat
deriving DecidableEq

/-- `BytecodeDialect::load`: return immediately when a load was already
attempted; otherwise consult the host context once, failing — without
recording anything — when the dialect is unknown and the context disallows
unregistered dialects. -/
def BytecodeDialect.load (ctx : String → Option Nat) (allowUnregistered : Bool)
    (d : BytecodeDialect) : LoadResult :=
  match d.dialect with
  | some _ => ⟨d, none, 0⟩
  | none =>
    let loadedDialect := ctx d.name
    if loadedDialect = none ∧ ¬ allowUnregistered = true then
      ⟨d, some (unknownDialectErr d.name), 1⟩
    else ⟨{ d with dialect := some loadedDialect }, none, 1⟩

/-- `k` successive uses of one dialect entry within a parse, each calling
`load`; a failing call aborts the parse, so no further call happens. -/
def runLoads (ctx : String → Option Nat) (allowUnregistered : Bool) :
    Nat → BytecodeDialect → LoadResult
  | 0, d => ⟨d, none, 0⟩
  | k + 1, d =>
    let r := BytecodeDialect.load ctx allowUnregistered d
    match r.err with
    | some e => ⟨r.entry, some e, r.hostLoads⟩
    | none =>
      let r2 := runLoads ctx allowUnregistered k r.entry
      ⟨r2.entry, r2.err, r.hostLoads + r2.hostLoads⟩

--===----------------------------------------------------------------------===--
-- Splicing the parsed operations into the target block
--===----------------------------------------------------------------------===--

/-- A host operation in the target block, as far as the final splice is
concerned: an identity and whether the operation is a terminator. -/
structure MOp where
  opId : Nat
  isTerminator : Bool
deriving DecidableEq

/-- The final splice of `parseIRSection`:
`destOps.splice(destOps.empty() ? destOps.end() : std::prev(destOps.end()), parsedOps, …)`
— the parsed operations are inserted at the end when the target block is
empty, and immediately before its last operation otherwise. -/
def spliceParsedOps {α : Type} : List α → List α → List α
  | [], parsed => parsed
  | [last], parsed => parsed ++ [last]
  | op :: rest, parsed => op :: spliceParsedOps rest parsed

/-- The splice as the spec's words describe it: insert before the
terminator if the target block has one (a terminator can only be the last
operation of a block), else append at the end. -/
def spliceAppendSpec (dest parsed : List MOp) : List MOp :=
  match dest.getLast? with
  | none => parsed
  | some last =>
    if last.isTerminator then dest.dropLast ++ parsed ++ [last]
    else dest ++ parsed

--===----------------------------------------------------------------------===--
-- Remaining cursor primitives and the section splitter
--===----------------------------------------------------------------------===--

theorem toLEBytes_length (n v : Nat) : (toLEBytes n v).length = n := by
  induction n generalizing v with
  | zero => simp [toLEBytes]
  | succ n ih => simp [toLEBytes, ih]

theorem assembleLE_append (n : Nat) (v : Nat) (rest : List Nat) :
    assembleLE n (toLEBytes n v ++ rest) = v % 256 ^ n := by
  induction n generalizing v with
  | zero => simp [assembleLE, toLEBytes, Nat.mod_one]
  | succ n ih =>
    show assembleLE (n + 1) ((v % 256 :: toLEBytes n (v / 256)) ++ rest)
        = v % 256 ^ (n + 1)
    rw [List.cons_append]
    show v % 256 + 256 * assembleLE n (toLEBytes n (v / 256) ++ rest) = _
    rw [ih, pow_succ', Nat.mod_mul]

theorem drop_toLEBytes_append (n : Nat) (v : Nat) (rest : List Nat) :
    (toLEBytes n v ++ rest).drop n = rest :=
  List.drop_left' (toLEBytes_length n v)

theorem parseBytesLE_toLEBytes (n v : Nat) (rest : List Nat) :
    parseBytesLE n (toLEBytes n v ++ rest) = .ok (v % 256 ^ n, rest) := by
  unfold parseBytesLE
  rw [if_pos (by simp [toLEBytes_length])]
  rw [assembleLE_append, drop_toLEBytes_append]

theorem ctzAux_pow_mul_odd (fuel j o : Nat) (hj : j < fuel) (ho : o % 2 = 1) :
    ctzAux fuel (2 ^ j * o) = j := by
  induction j generalizing fuel with
  | zero =>
    match fuel, hj with
    | f + 1, _ => simp [ctzAux, ho]
  | succ j ih =>
    match fuel, hj with
    | f + 1, hj =>
      have hne : (2 ^ (j + 1) * o) % 2 = 0 := by
        have : 2 ∣ 2 ^ (j + 1) * o := Dvd.dvd.mul_right (dvd_pow_self 2 (Nat.succ_ne_zero j)) o
        omega
      have hdiv : 2 ^ (j + 1) * o / 2 = 2 ^ j * o := by
        rw [pow_succ, Nat.mul_comm (2 ^ j) 2, Nat.mul_assoc]
        exact Nat.mul_div_cancel_left _ (by norm_num)
      simp only [ctzAux, hne]
      rw [if_neg (by omega), hdiv, ih f (Nat.lt_of_succ_lt_succ hj)]

theorem ctz32_pow_mul_odd (j o : Nat) (hj : j ≤ 31) (ho : o % 2 = 1) :
    ctz32 (2 ^ j * o) = j :=
  ctzAux_pow_mul_odd 32 j o (by omega) ho

/-- Decoding a `j + 1`-byte encoding for `1 ≤ j ≤ 7` (the multi-byte
path: the marker byte has `j` trailing zero bits). -/
theorem parseVarInt_multiAux (j x : Nat) (rest : List Nat)
    (hj1 : 1 ≤ j) (hj7 : j ≤ 7) (hx : x < 2 ^ (7 * (j + 1))) :
    parseVarInt (toLEBytes (j + 1) (x * 2 ^ (j + 1) + 2 ^ j) ++ rest)
      = .ok (x, rest) := by
  set v : Nat := x * 2 ^ (j + 1) + 2 ^ j with hv
  have hvfact : v = 2 ^ j * (2 * x + 1) := by rw [hv, pow_succ]; ring
  have h256 : (256 : Nat) = 2 ^ j * 2 ^ (8 - j) := by
    rw [← pow_add, show j + (8 - j) = 8 from by omega]
    norm_num
  have hb0 : v % 256 = 2 ^ j * ((2 * x + 1) % 2 ^ (8 - j)) := by
    rw [hvfact, h256]
    exact Nat.mul_mod_mul_left _ _ _
  have hodd : (2 * x + 1) % 2 ^ (8 - j) % 2 = 1 := by
    rw [Nat.mod_mod_of_dvd _ (dvd_pow_self 2 (by omega : 8 - j ≠ 0))]
    omega
  have hb0pos : 0 < v % 256 := by
    rw [hb0]
    have h1 : 0 < (2 * x + 1) % 2 ^ (8 - j) := by omega
    positivity
  have hb0even : v % 256 % 2 = 0 := by
    rw [hb0]
    have h2 : 2 ∣ 2 ^ j * ((2 * x + 1) % 2 ^ (8 - j)) :=
      Dvd.dvd.mul_right (dvd_pow_self 2 (by omega : j ≠ 0)) _
    omega
  have hctz : ctz32 (v % 256) = j := by
    rw [hb0]
    exact ctz32_pow_mul_odd j _ (by omega) hodd
  show parseVarInt ((v % 256 :: toLEBytes j (v / 256)) ++ rest) = .ok (x, rest)
  rw [List.cons_append]
  simp only [parseVarInt, parseByte]
  rw [if_neg (by omega), if_neg (by omega)]
  simp only [parseMultiByteVarInt, hctz]
  rw [parseBytesLE_toLEBytes]
  simp only
  have hrecombine : v % 256 + 256 * (v / 256 % 256 ^ j) = v % 256 ^ (j + 1) := by
    rw [pow_succ', Nat.mod_mul]
  rw [hrecombine]
  have hvlt : v < 256 ^ (j + 1) := by
    have h1 : 2 * x + 1 < 2 * 2 ^ (7 * (j + 1)) := by omega
    have hpj : (0 : Nat) < 2 ^ j := Nat.pos_pow_of_pos j (by norm_num)
    have h2 : 2 ^ j * (2 * x + 1) < 2 ^ j * (2 * 2 ^ (7 * (j + 1))) :=
      mul_lt_mul_of_pos_left h1 hpj
    have h3 : 2 ^ j * (2 * 2 ^ (7 * (j + 1))) = 2 ^ (8 * (j + 1)) := by
      rw [show (2 : Nat) * 2 ^ (7 * (j + 1)) = 2 ^ (7 * (j + 1) + 1) from by
            rw [pow_succ]; ring,
        ← pow_add, show j + (7 * (j + 1) + 1) = 8 * (j + 1) from by ring]
    have hp : (256 : Nat) ^ (j + 1) = 2 ^ (8 * (j + 1)) := by
      rw [show (256 : Nat) = 2 ^ 8 from by norm_num, ← pow_mul]
    rw [hvfact, hp]
    omega
  rw [Nat.mod_eq_of_lt hvlt]
  have hdiv : v / 2 ^ (j + 1) = x := by
    rw [hv, Nat.add_comm,
      Nat.add_mul_div_right _ _ (Nat.pos_pow_of_pos (j + 1) (by norm_num)),
      Nat.div_eq_of_lt (Nat.pow_lt_pow_right (by norm_num) (by omega))]
    omega
  rw [hdiv]

/-- Decoding the one-byte encoding. -/
theorem parseVarInt_oneByte (x : Nat) (rest : List Nat) (hx : x < 2 ^ 7) :
    parseVarInt (toLEBytes 1 (x * 2 + 1) ++ rest) = .ok (x, rest) := by
  simp only [toLEBytes, List.cons_append]
  rw [parseVarInt, parseByte]
  simp only
  have hlt : x * 2 + 1 < 256 := by omega
  rw [Nat.mod_eq_of_lt hlt, if_pos (by omega)]
  have hdiv : (x * 2 + 1) / 2 = x := by omega
  rw [hdiv, List.nil_append]

/-- Decoding the nine-byte (full-width) encoding. -/
theorem parseVarInt_nineByte (x : Nat) (rest : List Nat) (hx : x < 2 ^ 64) :
    parseVarInt ((0 :: toLEBytes 8 x) ++ rest) = .ok (x, rest) := by
  simp only [List.cons_append]
  rw [parseVarInt, parseByte]
  simp only
  rw [if_neg (by omega)]
  simp only [if_true]
  rw [parseBytesLE_toLEBytes]
  have h8 : (256 : Nat) ^ 8 = 2 ^ 64 := by norm_num
  rw [h8, Nat.mod_eq_of_lt hx]

/-- The minimal length category always admits the value. -/
theorem lt_cap_of_minVarIntLen_le (x m : Nat) (hx : x < 2 ^ 64)
    (hmin : minVarIntLen x ≤ m) (hm8 : m ≤ 8) : x < 2 ^ (7 * m) := by
  unfold minVarIntLen at hmin
  split_ifs at hmin with h1 h2 h3 h4 h5 h6 h7 h8
  · exact lt_of_lt_of_le h1 (Nat.pow_le_pow_right (by norm_num) (by omega))
  · exact lt_of_lt_of_le h2 (Nat.pow_le_pow_right (by norm_num) (by omega))
  · exact lt_of_lt_of_le h3 (Nat.pow_le_pow_right (by norm_num) (by omega))
  · exact lt_of_lt_of_le h4 (Nat.pow_le_pow_right (by norm_num) (by omega))
  · exact lt_of_lt_of_le h5 (Nat.pow_le_pow_right (by norm_num) (by omega))
  · exact lt_of_lt_of_le h6 (Nat.pow_le_pow_right (by norm_num) (by omega))
  · exact lt_of_lt_of_le h7 (Nat.pow_le_pow_right (by norm_num) (by omega))
  · exact lt_of_lt_of_le h8 (Nat.pow_le_pow_right (by norm_num) (by omega))
  · omega

/-- Any length category from the minimal one up to `9` decodes back to the
value (the reader never rejects non-minimal encodings). -/
theorem parseVarInt_encodeVarIntLen (m x : Nat) (rest : List Nat)
    (hx : x < 2 ^ 64) (hmin : minVarIntLen x ≤ m) (hm9 : m ≤ 9) :
    parseVarInt (encodeVarIntLen m x ++ rest) = .ok (x, rest) := by
  have hm1 : 1 ≤ minVarIntLen x := by
    unfold minVarIntLen
    split_ifs <;> omega
  rcases Nat.lt_or_ge m 9 with hm8 | hm9'
  · have hm8' : m ≤ 8 := by omega
    have hcap : x < 2 ^ (7 * m) := lt_cap_of_minVarIntLen_le x m hx hmin hm8'
    rw [encodeVarIntLen, if_neg (by omega)]
    rcases Nat.lt_or_ge m 2 with hm1' | hm2
    · have hm : m = 1 := by omega
      subst hm
      have : x * 2 ^ 1 + 2 ^ 0 = x * 2 + 1 := by ring
      rw [this]
      exact parseVarInt_oneByte x rest (by simpa using hcap)
    · obtain ⟨j, hj⟩ : ∃ j, m = j + 1 := ⟨m - 1, by omega⟩
      subst hj
      simp only [Nat.add_sub_cancel]
      exact parseVarInt_multiAux j x rest (by omega) (by omega) hcap
  · have hm : m = 9 := by omega
    subst hm
    rw [encodeVarIntLen, if_pos rfl]
    exact parseVarInt_nineByte x rest hx

/-- Round trip through the minimal encoding. -/
theorem parseVarInt_encodeVarInt (x : Nat) (rest : List Nat) (hx : x < 2 ^ 64) :
    parseVarInt (encodeVarInt x ++ rest) = .ok (x, rest) := by
  have h9 : minVarIntLen x ≤ 9 := by
    unfold minVarIntLen
    split_ifs <;> omega
  exact parseVarInt_encodeVarIntLen (minVarIntLen x) x rest hx le_rfl h9

theorem encodeVarIntLen_length (m x : Nat) (hm : 1 ≤ m) :
    (encodeVarIntLen m x).length = m := by
  unfold encodeVarIntLen
  split_ifs with h
  · simp [toLEBytes_length, h]
  · simp [toLEBytes_length]

theorem encodeVarInt_length (x : Nat) :
    (encodeVarInt x).length = minVarIntLen x := by
  unfold encodeVarInt
  exact encodeVarIntLen_length _ _ (by unfold minVarIntLen; split_ifs <;> omega)

theorem parseVarIntWithFlag_encodeVarInt (x : Nat) (f : Bool) (hx : x < 2 ^ 63) :
    parseVarIntWithFlag (encodeVarInt (x * 2 + (if f then 1 else 0)))
      = .ok ((x, f), []) := by
  have hy : x * 2 + (if f then 1 else 0) < 2 ^ 64 := by
    cases f <;> simp <;> omega
  have h := parseVarInt_encodeVarInt (x * 2 + (if f then 1 else 0)) [] hy
  rw [List.append_nil] at h
  rw [parseVarIntWithFlag, h]
  cases f <;> simp <;> omega

theorem sizesFit_sum_le (ts : List Nat) (endOff : Nat)
    (h : sizesFit endOff ts = true) : ts.sum ≤ endOff := by
  induction ts generalizing endOff with
  | nil => simp
  | cons t ts ih =>
    simp only [sizesFit, Bool.and_eq_true, decide_eq_true_eq] at h
    have := ih (endOff - t) h.2
    simp only [List.sum_cons]
    omega

theorem mkEntries_length (ts : List Nat) (endOff : Nat) :
    (mkEntries endOff ts).length = ts.length := by
  induction ts generalizing endOff with
  | nil => simp [mkEntries]
  | cons t ts ih => simp [mkEntries, ih]

theorem mkEntries_get (ts : List Nat) (endOff i : Nat)
    (hfit : sizesFit endOff ts = true) :
    (mkEntries endOff ts).get? i =
      (ts.reverse.get? i).map fun t =>
        (⟨endOff - ts.sum + ((ts.reverse.take i).sum), usub64 t 1⟩ : StringEntry) := by
  induction ts generalizing endOff i with
  | nil => simp [mkEntries]
  | cons t ts ih =>
    simp only [sizesFit, Bool.and_eq_true, decide_eq_true_eq] at hfit
    have hsum : ts.sum ≤ endOff - t := sizesFit_sum_le ts (endOff - t) hfit.2
    rw [mkEntries]
    rcases Nat.lt_trichotomy i ts.length with hi | hi | hi
    · rw [List.get?_append (by rw [mkEntries_length]; exact hi)]
      rw [ih (endOff - t) i hfit.2]
      have h1 : (t :: ts).reverse.get? i = ts.reverse.get? i := by
        rw [List.reverse_cons, List.get?_append (by simp; exact hi)]
      have h2 : ((t :: ts).reverse.take i).sum = (ts.reverse.take i).sum := by
        rw [List.reverse_cons, List.take_append_of_le_length (by simp; omega)]
      rw [h1, h2]
      have h3 : endOff - t - ts.sum = endOff - (t :: ts).sum := by
        simp only [List.sum_cons]
        omega
      rw [h3]
    · subst hi
      rw [List.get?_append_right (by rw [mkEntries_length])]
      rw [mkEntries_length, Nat.sub_self]
      have h1 : (t :: ts).reverse.get? ts.length = some t := by
        rw [List.reverse_cons, List.get?_append_right (by simp), List.length_reverse,
          Nat.sub_self]
        rfl
      have h2 : ((t :: ts).reverse.take ts.length).sum = ts.sum := by
        rw [List.reverse_cons, List.take_append_of_le_length (by simp),
          List.take_of_length_le (by simp), List.sum_reverse]
      rw [h1, h2]
      simp only [List.get?_cons_zero, Option.map_some', List.sum_cons]
      have : endOff - (t + ts.sum) + ts.sum = endOff - t := by omega
      rw [this]
    · rw [List.get?_eq_none.2 (by simp [mkEntries_length]; omega),
        List.get?_eq_none.2 (by simp; omega)]
      rfl

/-- Evaluating the string-size walk on a stream of encoded sizes followed
by the raw string data. -/
theorem parseStrLoop_encoded (ts : List Nat) (endOff total : Nat)
    (data : List Nat) (hts : ∀ t ∈ ts, t < 2 ^ 64) :
    parseStrLoop ts.length endOff total (encodeVarIntList ts ++ data) =
      if sizesFit endOff ts then
        .ok (mkEntries endOff ts, endOff - ts.sum, total + ts.sum, data)
      else .error stringSizeErr := by
  induction ts generalizing endOff total with
  | nil => simp [parseStrLoop, sizesFit, mkEntries, encodeVarIntList]
  | cons t ts ih =>
    have ht : t < 2 ^ 64 := hts t (by simp)
    show parseStrLoop (ts.length + 1) endOff total _ = _
    rw [parseStrLoop]
    rw [show encodeVarIntList (t :: ts) ++ data
        = encodeVarInt t ++ (encodeVarIntList ts ++ data) from by
      simp [encodeVarIntList]]
    rw [parseVarInt_encodeVarInt t _ ht]
    simp only
    by_cases hle : endOff < t
    · rw [if_pos hle]
      have : sizesFit endOff (t :: ts) = false := by
        simp only [sizesFit, Bool.and_eq_false_iff]
        left
        simp
        omega
      rw [this]
      simp
    · rw [if_neg hle]
      rw [ih (endOff - t) (total + t) (fun u hu => hts u (by simp [hu]))]
      have hfit : sizesFit endOff (t :: ts) = sizesFit (endOff - t) ts := by
        simp only [sizesFit, Bool.and_eq_true, decide_eq_true_eq]
        rw [decide_eq_true (by omega : t ≤ endOff)]
        simp
      rw [← hfit]
      by_cases hf : sizesFit endOff (t :: ts)
      · rw [if_pos hf, if_pos hf]
        simp only [mkEntries, List.sum_cons]
        have h1 : endOff - t - ts.sum = endOff - (t + ts.sum) := by omega
        have h2 : total + t + ts.sum = total + (t + ts.sum) := by omega
        rw [h1, h2]
      · rw [if_neg hf, if_neg hf]

theorem sizesFit_of_sum_le (ts : List Nat) (endOff : Nat)
    (h : ts.sum ≤ endOff) : sizesFit endOff ts = true := by
  induction ts generalizing endOff with
  | nil => rfl
  | cons t ts ih =>
    simp only [List.sum_cons] at h
    simp only [sizesFit, Bool.and_eq_true, decide_eq_true_eq]
    exact ⟨by omega, ih (endOff - t) (by omega)⟩

theorem usub64_one (t : Nat) (h1 : 1 ≤ t) (h2 : t < 2 ^ 64) :
    usub64 t 1 = t - 1 := by
  unfold usub64
  omega

/-- Full evaluation of `parseStringSection` on a section assembled from a
count, a stream of encoded sizes and the raw string data. -/
theorem parseStringSection_encoded (ts : List Nat) (data : List Nat)
    (hN : ts.length < 2 ^ 64) (hts : ∀ t ∈ ts, t < 2 ^ 64) :
    parseStringSection (encodeVarInt ts.length ++ (encodeVarIntList ts ++ data)) =
      if sizesFit (encodeVarInt ts.length ++ (encodeVarIntList ts ++ data)).length ts then
        if data.length ≠ ts.sum then .error stringTrailingErr
        else .ok (mkEntries
          (encodeVarInt ts.length ++ (encodeVarIntList ts ++ data)).length ts)
      else .error stringSizeErr := by
  rw [parseStringSection, parseVarInt_encodeVarInt ts.length _ hN]
  simp only
  rw [parseStrLoop_encoded ts _ 0 data hts]
  by_cases hf : sizesFit (encodeVarInt ts.length ++ (encodeVarIntList ts ++ data)).length ts
  · rw [if_pos hf, if_pos hf]
    simp only [Nat.zero_add]
  · rw [if_neg hf, if_neg hf]

/-- **C7.** In a well-formed string section with `N` sizes, string `i` is
found by the reverse walk of the size list: its offset is the header
length plus the sizes of the strings before it (the last size in the
stream belongs to the string at offset `0` of the string-data region);
each stored size includes the trailing null byte while the table records
the size minus one; an oversized entry fails with
"string size exceeds the available data size" and a size-sum mismatch
fails with "unexpected trailing data between the offsets for strings and
their data".  Here `s` lists the sizes in table order, so the size stream
of the section is `s.reverse`. -/
theorem claim_C7_string_section_layout (s : List Nat) (data : List Nat)
    (hsz : ∀ t ∈ s, 1 ≤ t ∧ t < 2 ^ 64) (hN : s.length < 2 ^ 64) :
    (data.length = s.sum →
      ∃ entries,
        parseStringSection
          (encodeVarInt s.length ++ (encodeVarIntList s.reverse ++ data)) = .ok entries ∧
        entries.length = s.length ∧
        ∀ i : Nat, entries.get? i = (s.get? i).map fun t =>
          (⟨(encodeVarInt s.length ++ encodeVarIntList s.reverse).length + (s.take i).sum,
            t - 1⟩ : StringEntry)) ∧
    (sizesFit (encodeVarInt s.length ++ (encodeVarIntList s.reverse ++ data)).length
        s.reverse = false →
      parseStringSection (encodeVarInt s.length ++ (encodeVarIntList s.reverse ++ data)) =
        .error stringSizeErr) ∧
    (sizesFit (encodeVarInt s.length ++ (encodeVarIntList s.reverse ++ data)).length
        s.reverse = true →
      data.length ≠ s.sum →
      parseStringSection (encodeVarInt s.length ++ (encodeVarIntList s.reverse ++ data)) =
        .error stringTrailingErr) := by
  have hres : parseStringSection
      (encodeVarInt s.reverse.length ++ (encodeVarIntList s.reverse ++ data)) =
      if sizesFit (encodeVarInt s.reverse.length ++
          (encodeVarIntList s.reverse ++ data)).length s.reverse then
        if data.length ≠ s.reverse.sum then .error stringTrailingErr
        else .ok (mkEntries (encodeVarInt s.reverse.length ++
          (encodeVarIntList s.reverse ++ data)).length s.reverse)
      else .error stringSizeErr :=
    parseStringSection_encoded s.reverse data (by simpa using hN)
      (fun t ht => (hsz t (by simpa using ht)).2)
  rw [List.length_reverse] at hres
  refine ⟨?_, ?_, ?_⟩
  · intro hdata
    set L := (encodeVarInt s.length ++ (encodeVarIntList s.reverse ++ data)).length with hL
    have hsumle : s.reverse.sum ≤ L := by
      rw [List.sum_reverse, hL]
      simp only [List.length_append]
      omega
    have hfit : sizesFit L s.reverse = true := sizesFit_of_sum_le _ _ hsumle
    rw [hres, if_pos hfit, if_neg (by rw [List.sum_reverse]; omega)]
    refine ⟨mkEntries L s.reverse, rfl, ?_, ?_⟩
    · rw [mkEntries_length, List.length_reverse]
    · intro i
      rw [mkEntries_get s.reverse L i hfit, List.reverse_reverse]
      cases hg : s.get? i with
      | none => rfl
      | some t =>
        have hmem : t ∈ s := List.get?_mem hg
        simp only [Option.map_some']
        congr 1
        have hoff : L - s.reverse.sum = (encodeVarInt s.length ++ encodeVarIntList s.reverse).length := by
          rw [List.sum_reverse, hL]
          simp only [List.length_append]
          omega
        rw [List.sum_reverse, usub64_one t (hsz t hmem).1 (hsz t hmem).2]
        have : L - s.sum = (encodeVarInt s.length ++ encodeVarIntList s.reverse).length := by
          rw [← List.sum_reverse s, hoff]
        rw [this]
  · intro hf
    rw [hres, if_neg (by rw [hf]; simp)]
  · intro hf hd
    rw [hres, if_pos hf, if_pos (by rw [List.sum_reverse]; exact hd)]

/-- Witness for C7: a section with table-order sizes `[2, 3]` (size stream
`[3, 2]`) and five data bytes parses to entries at offsets `3` and `5`
with lengths `1` and `2`. -/
theorem claim_C7_witness :
    ∃ entries,
      parseStringSection
        (encodeVarInt (2 : Nat) ++ (encodeVarIntList [3, 2] ++ [65, 0, 66, 67, 0]))
        = .ok entries ∧
      entries.length = 2 ∧
      entries.get? 1 = some ⟨5, 2⟩ := by
  obtain ⟨entries, he, hlen, hget⟩ :=
    (claim_C7_string_section_layout [2, 3] [65, 0, 66, 67, 0]
      (by decide) (by decide)).1 (by decide)
  refine ⟨entries, he, hlen, ?_⟩
  rw [hget 1]
  rfl

/-- **C9.** A string-table entry of declared size `0` does not take the
"string size exceeds the available data size" branch (the check
`stringDataEndOffset < stringSize` passes for `0`), and the recorded
length is `0 - 1` in `size_t` arithmetic, i.e. it wraps to `2 ^ 64 - 1`;
the running end offset and data total are unchanged. -/
theorem claim_C9_zero_size_wraps (count endOff total : Nat)
    (bytes rest : List Nat) (h : parseVarInt bytes = .ok (0, rest)) :
    parseStrLoop (count + 1) endOff total bytes =
      match parseStrLoop count endOff total rest with
      | .error e => .error e
      | .ok (entries, endOff2, total2, rest2) =>
        .ok (entries ++ [⟨endOff, 2 ^ 64 - 1⟩], endOff2, total2, rest2) := by
  rw [parseStrLoop, h]
  simp only
  rw [if_neg (by omega)]
  have h1 : endOff - 0 = endOff := by omega
  have h2 : total + 0 = total := by omega
  have h3 : usub64 0 1 = 2 ^ 64 - 1 := by unfold usub64; omega
  rw [h1, h2, h3]

/-- Witness for C9: a one-entry table with declared size `0` parses
successfully with recorded length `2 ^ 64 - 1`. -/
theorem claim_C9_witness :
    parseStrLoop 1 7 0 [1] = .ok ([⟨7, 2 ^ 64 - 1⟩], 7, 0, []) := by
  rw [claim_C9_zero_size_wraps 0 7 0 [1] [] rfl]
  rfl

/-- **C10.** The reader does not enforce minimal-length varint encodings:
for every value and every length category from the minimal one up to nine
bytes, the encoding at that length decodes back to the value — non-minimal
encodings are accepted, never rejected. -/
theorem claim_C10_nonminimal_accepted (m x : Nat) (rest : List Nat)
    (hx : x < 2 ^ 64) (hmin : minVarIntLen x ≤ m) (hm9 : m ≤ 9) :
    parseVarInt (encodeVarIntLen m x ++ rest) = .ok (x, rest) :=
  parseVarInt_encodeVarIntLen m x rest hx hmin hm9

/-- Witness for C10: the value `5` (minimal category one byte) in a
three-byte encoding still decodes to `5`. -/
theorem claim_C10_witness :
    parseVarInt (encodeVarIntLen 3 5 ++ [9]) = .ok (5, [9]) :=
  claim_C10_nonminimal_accepted 3 5 [9] (by decide) (by decide) (by decide)

/-- **C2 counterexample.** As stated the claim fails for `x = 2 ^ 63`:
the `uint64_t` computation `(x << 1) | flag` wraps to `0`, whose encoding
decodes to the pair `(0, false)`, not `(2 ^ 63, false)`. -/
theorem claim_C2_counterexample :
    parseVarIntWithFlag (encodeVarInt ((2 ^ 63 * 2 + 0) % 2 ^ 64))
      ≠ .ok ((2 ^ 63, false), []) := by
  intro h
  have hval : parseVarIntWithFlag (encodeVarInt ((2 ^ 63 * 2 + 0) % 2 ^ 64))
      = .ok ((0, false), []) := by rfl
  rw [hval] at h
  simp only [Except.ok.injEq, Prod.mk.injEq] at h
  exact absurd h.1.1 (by norm_num)

/-- **C2 (amended).** For every `x < 2 ^ 64` the minimal-length encoding
decodes back to `x` under `parseVarInt` and its length is the minimal
category (1 byte if `x < 2 ^ 7`, 2 bytes if `x < 2 ^ 14`, …, 9 bytes if
`x ≥ 2 ^ 56`); and for every pair `(x, flag)` with `x < 2 ^ 63` — so that
`(x << 1) | flag` does not wrap in `uint64_t` — `parseVarIntWithFlag`
applied to the encoding of `x * 2 + flag` yields exactly `(x, flag)`. -/
theorem claim_C2_varint_roundtrip (x : Nat) (f : Bool) (hx : x < 2 ^ 64) :
    parseVarInt (encodeVarInt x) = .ok (x, []) ∧
    (encodeVarInt x).length = minVarIntLen x ∧
    (x < 2 ^ 63 →
      parseVarIntWithFlag (encodeVarInt (x * 2 + (if f then 1 else 0)))
        = .ok ((x, f), [])) := by
  refine ⟨?_, encodeVarInt_length x,
    fun hxf => parseVarIntWithFlag_encodeVarInt x f hxf⟩
  have h := parseVarInt_encodeVarInt x [] hx
  rwa [List.append_nil] at h

/-- Witness for C2 (amended): the value `300` with flag `true`. -/
theorem claim_C2_witness :
    parseVarInt (encodeVarInt 300) = .ok (300, []) ∧
    (encodeVarInt 300).length = minVarIntLen 300 ∧
    parseVarIntWithFlag (encodeVarInt (300 * 2 + 1)) = .ok ((300, true), []) := by
  have h := claim_C2_varint_roundtrip 300 true (by norm_num)
  exact ⟨h.1, h.2.1, by simpa using h.2.2 (by norm_num)⟩

--===----------------------------------------------------------------------===--
-- Value-manager invariants (C1)
--===----------------------------------------------------------------------===--

theorem get?_set_self' {α : Type} (l : List α) (i : Nat) (a : α)
    (h : i < l.length) : (l.set i a).get? i = some a := by
  rw [List.get?_eq_getElem?]
  exact List.getElem?_set_self (by simpa using h)

theorem get?_set_ne' {α : Type} (l : List α) (i j : Nat) (a : α)
    (h : i ≠ j) : (l.set i a).get? j = l.get? j := by
  rw [List.get?_eq_getElem?, List.get?_eq_getElem?]
  exact List.getElem?_set_ne h

theorem set_real_rup (values : List (Option MValue)) (valueID r : Nat)
    (hvlt : valueID < values.length)
    (hrup : ∀ i r2, values.get? i = some (some (.real r2)) → i < valueID) :
    ∀ i r2, (values.set valueID (some (.real r))).get? i =
      some (some (.real r2)) → i < valueID + 1 := by
  intro i r2 hi
  by_cases hiv : i = valueID
  · omega
  · rw [get?_set_ne' _ _ _ _ (Ne.symm hiv)] at hi
    have := hrup i r2 hi
    omega

theorem set_real_rdn (values : List (Option MValue)) (valueID r : Nat)
    (hvlt : valueID < values.length)
    (hrdn : ∀ i, i < valueID → ∃ r2, values.get? i = some (some (.real r2))) :
    ∀ i, i < valueID + 1 →
      ∃ r2, (values.set valueID (some (.real r))).get? i =
        some (some (.real r2)) := by
  intro i hi
  by_cases hiv : i = valueID
  · subst hiv
    exact ⟨r, get?_set_self' _ _ _ hvlt⟩
  · obtain ⟨r2, hr2⟩ := hrdn i (by omega)
    exact ⟨r2, by rw [get?_set_ne' _ _ _ _ (Ne.symm hiv)]; exact hr2⟩

theorem set_real_inj (values : List (Option MValue)) (valueID r : Nat)
    (hvlt : valueID < values.length)
    (hinj : ∀ i j f, values.get? i = some (some (.fwd f)) →
      values.get? j = some (some (.fwd f)) → i = j) :
    ∀ i j f, (values.set valueID (some (.real r))).get? i =
        some (some (.fwd f)) →
      (values.set valueID (some (.real r))).get? j =
        some (some (.fwd f)) → i = j := by
  intro i j f hi hj
  by_cases hiv : i = valueID
  · subst hiv
    rw [get?_set_self' _ _ _ hvlt] at hi
    simp at hi
  · by_cases hjv : j = valueID
    · subst hjv
      rw [get?_set_self' _ _ _ hvlt] at hj
      simp at hj
    · rw [get?_set_ne' _ _ _ _ (Ne.symm hiv)] at hi
      rw [get?_set_ne' _ _ _ _ (Ne.symm hjv)] at hj
      exact hinj i j f hi hj

/-- The assignment loop succeeds under the single-scope invariant and
preserves it. -/
theorem defineValuesGo_preserves (rs : List Nat) :
    ∀ (values : List (Option MValue)) (useSites : List (Nat × MValue))
      (active free : List Nat) (nextFwd valueID : Nat),
      valueID + rs.length ≤ values.length →
      (∀ i r, values.get? i = some (some (.real r)) → i < valueID) →
      (∀ i, i < valueID → ∃ r, values.get? i = some (some (.real r))) →
      (∀ i f, values.get? i = some (some (.fwd f)) → f ∈ active) →
      (∀ i j f, values.get? i = some (some (.fwd f)) →
        values.get? j = some (some (.fwd f)) → i = j) →
      active.Nodup → free.Nodup →
      (∀ f, f ∈ active → f ∉ free) →
      (∀ f, f ∈ active ∨ f ∈ free → f < nextFwd) →
      (∀ idx v, (idx, v) ∈ useSites → values.get? idx = some (some v)) →
      ∃ values2 useSites2 active2 free2,
        defineValuesGo values useSites active free valueID rs =
          some (values2, useSites2, active2, free2, valueID + rs.length) ∧
        values2.length = values.length ∧
        (∀ i r, values2.get? i = some (some (.real r)) →
          i < valueID + rs.length) ∧
        (∀ i, i < valueID + rs.length →
          ∃ r, values2.get? i = some (some (.real r))) ∧
        (∀ i f, values2.get? i = some (some (.fwd f)) → f ∈ active2) ∧
        (∀ i j f, values2.get? i = some (some (.fwd f)) →
          values2.get? j = some (some (.fwd f)) → i = j) ∧
        active2.Nodup ∧ free2.Nodup ∧
        (∀ f, f ∈ active2 → f ∉ free2) ∧
        (∀ f, f ∈ active2 ∨ f ∈ free2 → f < nextFwd) ∧
        (∀ idx v, (idx, v) ∈ useSites2 →
          values2.get? idx = some (some v)) := by
  induction rs with
  | nil =>
    intro values useSites active free nextFwd valueID hlen hrup hrdn hfa hinj
      hna hnf hdisj hlt huse
    exact ⟨values, useSites, active, free, by simp [defineValuesGo], rfl,
      by simpa using hrup, by simpa using hrdn, hfa, hinj, hna, hnf, hdisj,
      hlt, huse⟩
  | cons r rs ih =>
    intro values useSites active free nextFwd valueID hlen hrup hrdn hfa hinj
      hna hnf hdisj hlt huse
    have hvlt : valueID < values.length := by
      simp only [List.length_cons] at hlen
      omega
    obtain ⟨old, hold⟩ : ∃ o, values.get? valueID = some o :=
      ⟨values.get ⟨valueID, hvlt⟩, List.get?_eq_get hvlt⟩
    have hstepbase :
        defineValuesGo values useSites active free valueID (r :: rs) =
          match old with
          | none =>
            defineValuesGo (values.set valueID (some (.real r))) useSites
              active free (valueID + 1) rs
          | some (.fwd f) =>
            defineValuesGo (values.set valueID (some (.real r)))
              (useSites.map fun p =>
                if p.2 = MValue.fwd f then (p.1, MValue.real r) else p)
              (active.erase f) (f :: free) (valueID + 1) rs
          | some (.real _) => none := by
      simp only [defineValuesGo, hold]
      cases old with
      | none => rfl
      | some v => cases v <;> rfl
    have hcount : valueID + (r :: rs).length = valueID + 1 + rs.length := by
      simp only [List.length_cons]
      omega
    rw [hcount, hstepbase]
    rcases old with _ | v
    · -- the slot was unset: plain assignment
      have hlen2 : valueID + 1 + rs.length ≤
          (values.set valueID (some (.real r))).length := by
        rw [List.length_set]
        simp only [List.length_cons] at hlen
        omega
      have hfa2 : ∀ i f, (values.set valueID (some (.real r))).get? i =
          some (some (.fwd f)) → f ∈ active := by
        intro i f hi
        by_cases hiv : i = valueID
        · subst hiv
          rw [get?_set_self' _ _ _ hvlt] at hi
          simp at hi
        · rw [get?_set_ne' _ _ _ _ (Ne.symm hiv)] at hi
          exact hfa i f hi
      have huse2 : ∀ idx v, (idx, v) ∈ useSites →
          (values.set valueID (some (.real r))).get? idx = some (some v) := by
        intro idx v hm
        have horig := huse idx v hm
        by_cases hiv : idx = valueID
        · subst hiv
          rw [hold] at horig
          simp at horig
        · rw [get?_set_ne' _ _ _ _ (Ne.symm hiv)]
          exact horig
      obtain ⟨v2, u2, a2, f2, heq, hcl, h1, h2, h3, h4, h5, h6, h7, h8, h9⟩ :=
        ih (values.set valueID (some (.real r))) useSites active free nextFwd
          (valueID + 1) hlen2 (set_real_rup values valueID r hvlt hrup)
          (set_real_rdn values valueID r hvlt hrdn) hfa2
          (set_real_inj values valueID r hvlt hinj) hna hnf hdisj hlt huse2
      exact ⟨v2, u2, a2, f2, heq, by rw [hcl, List.length_set], h1, h2, h3,
        h4, h5, h6, h7, h8, h9⟩
    · rcases v with r' | f
      · -- a real value was already stored below the next id: impossible
        exact absurd (hrup valueID r' hold) (by omega)
      · -- the slot held a placeholder: resolve it
        have hfmem : f ∈ active := hfa valueID f hold
        have hlen2 : valueID + 1 + rs.length ≤
            (values.set valueID (some (.real r))).length := by
          rw [List.length_set]
          simp only [List.length_cons] at hlen
          omega
        have hfa2 : ∀ i g, (values.set valueID (some (.real r))).get? i =
            some (some (.fwd g)) → g ∈ active.erase f := by
          intro i g hi
          by_cases hiv : i = valueID
          · subst hiv
            rw [get?_set_self' _ _ _ hvlt] at hi
            simp at hi
          · rw [get?_set_ne' _ _ _ _ (Ne.symm hiv)] at hi
            have hg : g ∈ active := hfa i g hi
            have hgf : g ≠ f := by
              intro he
              subst he
              exact hiv (hinj i valueID g hi hold)
            exact (List.mem_erase_of_ne hgf).2 hg
        have hna2 : (active.erase f).Nodup := hna.erase f
        have hnf2 : (f :: free).Nodup := List.nodup_cons.2 ⟨hdisj f hfmem, hnf⟩
        have hdisj2 : ∀ g, g ∈ active.erase f → g ∉ f :: free := by
          intro g hg hmem
          rcases List.mem_cons.1 hmem with he | hfree
          · subst he
            exact hna.not_mem_erase hg
          · exact hdisj g (List.mem_of_mem_erase hg) hfree
        have hlt2 : ∀ g, g ∈ active.erase f ∨ g ∈ f :: free → g < nextFwd := by
          intro g hg
          rcases hg with hg | hg
          · exact hlt g (Or.inl (List.mem_of_mem_erase hg))
          · rcases List.mem_cons.1 hg with he | hfree
            · subst he
              exact hlt g (Or.inl hfmem)
            · exact hlt g (Or.inr hfree)
        have huse2 : ∀ idx v,
            (idx, v) ∈ (useSites.map fun p =>
              if p.2 = MValue.fwd f then (p.1, MValue.real r) else p) →
            (values.set valueID (some (.real r))).get? idx = some (some v) := by
          intro idx v hm
          obtain ⟨⟨idx0, v0⟩, h0, hfn⟩ := List.mem_map.1 hm
          by_cases hv0 : v0 = MValue.fwd f
          · simp only [hv0, if_pos rfl] at hfn
            injection hfn with hidx hv
            subst hidx
            subst hv
            have h00 := huse idx0 (MValue.fwd f) (hv0 ▸ h0)
            have hidx0 : idx0 = valueID := hinj idx0 valueID f h00 hold
            subst hidx0
            exact get?_set_self' _ _ _ hvlt
          · simp only [if_neg hv0] at hfn
            injection hfn with hidx hv
            subst hidx
            subst hv
            have horig := huse idx0 v0 h0
            by_cases hiv : idx0 = valueID
            · subst hiv
              rw [hold] at horig
              simp only [Option.some.injEq] at horig
              exact absurd horig.symm hv0
            · rw [get?_set_ne' _ _ _ _ (Ne.symm hiv)]
              exact horig
        obtain ⟨v2, u2, a2, f2, heq, hcl, h1, h2, h3, h4, h5, h6, h7, h8, h9⟩ :=
          ih (values.set valueID (some (.real r)))
            (useSites.map fun p =>
              if p.2 = MValue.fwd f then (p.1, MValue.real r) else p)
            (active.erase f) (f :: free) nextFwd (valueID + 1) hlen2
            (set_real_rup values valueID r hvlt hrup)
            (set_real_rdn values valueID r hvlt hrdn) hfa2
            (set_real_inj values valueID r hvlt hinj) hna2 hnf2 hdisj2 hlt2
            huse2
        exact ⟨v2, u2, a2, f2, heq, by rw [hcl, List.length_set], h1, h2, h3,
          h4, h5, h6, h7, h8, h9⟩

/-- `defineValues` preserves the single-scope invariant. -/
theorem defineValues_preserves (s : IRValueState) (rs : List Nat)
    (s2 : IRValueState) (hinv : ScopeInv s)
    (h : defineValues s rs = some (.ok s2)) : ScopeInv s2 := by
  obtain ⟨sc, n, hsc, hids, hlen, hrup, hrdn, hfa, hinj, hna, hnf, hdisj,
    hlt, huse⟩ := hinv
  simp only [defineValues, hsc, hids] at h
  by_cases hif : n + rs.length > sc.values.length
  · rw [if_pos hif] at h
    simp at h
  · rw [if_neg hif] at h
    obtain ⟨v2, u2, a2, f2, heq, hcl, h1, h2, h3, h4, h5, h6, h7, h8, h9⟩ :=
      defineValuesGo_preserves rs sc.values s.useSites s.forwardRefOps
        s.openForwardRefOps s.nextForwardRefId n (by omega) hrup hrdn hfa hinj
        hna hnf hdisj hlt huse
    rw [heq] at h
    simp only [Option.some.injEq, Except.ok.injEq] at h
    subst h
    exact ⟨⟨v2, [n + rs.length]⟩, n + rs.length, rfl, rfl, by rw [hcl]; omega,
      h1, h2, h3, h4, h5, h6, h7, h8, h9⟩

/-- Inserting a fresh-for-the-active-pool placeholder into an unset slot
preserves the single-scope invariant (common core of the two
`createForwardRef` paths). -/
theorem fwd_insert_scopeInv (sc : ValueScope) (n idx f nextFwd2 : Nat)
    (active free2 : List Nat) (useSites : List (Nat × MValue))
    (hids : sc.nextValueIDs = [n])
    (hlen : n ≤ sc.values.length)
    (hrup : ∀ i r, sc.values.get? i = some (some (.real r)) → i < n)
    (hrdn : ∀ i, i < n → ∃ r, sc.values.get? i = some (some (.real r)))
    (hfa : ∀ i g, sc.values.get? i = some (some (.fwd g)) → g ∈ active)
    (hinj : ∀ i j g, sc.values.get? i = some (some (.fwd g)) →
      sc.values.get? j = some (some (.fwd g)) → i = j)
    (hna : active.Nodup)
    (hslot : sc.values.get? idx = some none)
    (hfnotact : f ∉ active)
    (hnf2 : free2.Nodup)
    (hdisj2 : ∀ g, g ∈ active → g ∉ free2)
    (hfnotfree2 : f ∉ free2)
    (hlt2 : ∀ g, g ∈ active ∨ g ∈ free2 → g < nextFwd2)
    (hflt : f < nextFwd2)
    (huse : ∀ i0 v0, (i0, v0) ∈ useSites →
      sc.values.get? i0 = some (some v0)) :
    ScopeInv ⟨[{ sc with values := sc.values.set idx (some (.fwd f)) }],
      f :: active, free2, nextFwd2, useSites ++ [(idx, MValue.fwd f)]⟩ := by
  have hidxlt : idx < sc.values.length := by
    by_contra hge
    rw [List.get?_eq_none.2 (by omega)] at hslot
    cases hslot
  refine ⟨_, n, rfl, hids, by simp [hlen], ?_, ?_, ?_, ?_, ?_, hnf2, ?_, ?_, ?_⟩
  · intro i r hi
    by_cases hiv : i = idx
    · subst hiv
      rw [get?_set_self' _ _ _ hidxlt] at hi
      simp at hi
    · rw [get?_set_ne' _ _ _ _ (Ne.symm hiv)] at hi
      exact hrup i r hi
  · intro i hi
    obtain ⟨r2, hr2⟩ := hrdn i hi
    have hne : i ≠ idx := by
      intro he
      subst he
      rw [hslot] at hr2
      simp at hr2
    exact ⟨r2, by rw [get?_set_ne' _ _ _ _ (Ne.symm hne)]; exact hr2⟩
  · intro i g hi
    by_cases hiv : i = idx
    · subst hiv
      rw [get?_set_self' _ _ _ hidxlt] at hi
      simp only [Option.some.injEq, MValue.fwd.injEq] at hi
      subst hi
      exact List.mem_cons_self f active
    · rw [get?_set_ne' _ _ _ _ (Ne.symm hiv)] at hi
      exact List.mem_cons_of_mem f (hfa i g hi)
  · intro i j g hi hj
    by_cases hiv : i = idx
    · by_cases hjv : j = idx
      · omega
      · subst hiv
        rw [get?_set_self' _ _ _ hidxlt] at hi
        simp only [Option.some.injEq, MValue.fwd.injEq] at hi
        subst hi
        rw [get?_set_ne' _ _ _ _ (Ne.symm hjv)] at hj
        exact absurd (hfa j f hj) hfnotact
    · by_cases hjv : j = idx
      · subst hjv
        rw [get?_set_self' _ _ _ hidxlt] at hj
        simp only [Option.some.injEq, MValue.fwd.injEq] at hj
        subst hj
        rw [get?_set_ne' _ _ _ _ (Ne.symm hiv)] at hi
        exact absurd (hfa i f hi) hfnotact
      · rw [get?_set_ne' _ _ _ _ (Ne.symm hiv)] at hi
        rw [get?_set_ne' _ _ _ _ (Ne.symm hjv)] at hj
        exact hinj i j g hi hj
  · exact List.nodup_cons.2 ⟨hfnotact, hna⟩
  · intro g hg
    rcases List.mem_cons.1 hg with he | hact
    · subst he
      exact hfnotfree2
    · exact hdisj2 g hact
  · intro g hg
    rcases hg with hg | hg
    · rcases List.mem_cons.1 hg with he | hact
      · subst he
        exact hflt
      · exact hlt2 g (Or.inl hact)
    · exact hlt2 g (Or.inr hg)
  · intro i0 v0 hm
    rcases List.mem_append.1 hm with hm | hm
    · have horig := huse i0 v0 hm
      have hne : i0 ≠ idx := by
        intro he
        subst he
        rw [hslot] at horig
        simp at horig
      rw [get?_set_ne' _ _ _ _ (Ne.symm hne)]
      exact horig
    · rcases List.mem_singleton.1 hm with hm2
      injection hm2 with hi0 hv0
      subst hi0
      subst hv0
      exact get?_set_self' _ _ _ hidxlt

/-- `parseOperandIdx` preserves the single-scope invariant. -/
theorem parseOperandIdx_preserves (s : IRValueState) (idx : Nat) (v : MValue)
    (s2 : IRValueState) (hinv : ScopeInv s)
    (h : parseOperandIdx s idx = some (.ok (v, s2))) : ScopeInv s2 := by
  obtain ⟨sc, n, hsc, hids, hlen, hrup, hrdn, hfa, hinj, hna, hnf, hdisj,
    hlt, huse⟩ := hinv
  cases hslot : sc.values.get? idx with
  | none =>
    simp only [parseOperandIdx, hsc, hslot] at h
    simp at h
  | some o =>
    cases o with
    | some v0 =>
      simp only [parseOperandIdx, hsc, hslot, Option.some.injEq,
        Except.ok.injEq, Prod.mk.injEq] at h
      obtain ⟨hv, hs2⟩ := h
      subst hs2
      refine ⟨sc, n, rfl, hids, hlen, hrup, hrdn, hfa, hinj, hna, hnf, hdisj,
        hlt, ?_⟩
      intro i0 u0 hm
      rcases List.mem_append.1 hm with hm | hm
      · exact huse i0 u0 hm
      · rcases List.mem_singleton.1 hm with hm2
        injection hm2 with hi0 hu0
        subst hi0
        subst hu0
        exact hslot
    | none =>
      cases hopen : s.openForwardRefOps with
      | cons f freeRest =>
        simp only [parseOperandIdx, hsc, hslot, hopen, Option.some.injEq,
          Except.ok.injEq, Prod.mk.injEq] at h
        obtain ⟨hv, hs2⟩ := h
        subst hs2
        have hffree : f ∈ s.openForwardRefOps := by
          rw [hopen]
          exact List.mem_cons_self f freeRest
        have hfnotact : f ∉ s.forwardRefOps := by
          intro hact
          exact hdisj f hact hffree
        have hnf2 : freeRest.Nodup := (List.nodup_cons.1 (hopen ▸ hnf)).2
        have hfnotfree2 : f ∉ freeRest := (List.nodup_cons.1 (hopen ▸ hnf)).1
        exact fwd_insert_scopeInv sc n idx f s.nextForwardRefId
          s.forwardRefOps freeRest s.useSites hids hlen hrup hrdn hfa hinj hna
          hslot hfnotact hnf2
          (fun g hg hgf => hdisj g hg (hopen ▸ List.mem_cons_of_mem f hgf))
          hfnotfree2
          (fun g hg => hlt g (hg.imp id fun h2 =>
            hopen ▸ List.mem_cons_of_mem f h2))
          (hlt f (Or.inr hffree)) huse
      | nil =>
        simp only [parseOperandIdx, hsc, hslot, hopen, Option.some.injEq,
          Except.ok.injEq, Prod.mk.injEq] at h
        obtain ⟨hv, hs2⟩ := h
        subst hs2
        have hfnotact : s.nextForwardRefId ∉ s.forwardRefOps := by
          intro hact
          exact absurd (hlt s.nextForwardRefId (Or.inl hact)) (by omega)
        exact fwd_insert_scopeInv sc n idx s.nextForwardRefId
          (s.nextForwardRefId + 1) s.forwardRefOps [] s.useSites hids hlen
          hrup hrdn hfa hinj hna hslot hfnotact List.nodup_nil
          (fun g _ hg => (List.not_mem_nil g) hg)
          (List.not_mem_nil _)
          (fun g hg => by
            rcases hg with hg | hg
            · exact Nat.lt_succ_of_lt (hlt g (Or.inl hg))
            · exact absurd hg (List.not_mem_nil g))
          (Nat.lt_succ_self _) huse

/-- One event preserves the single-scope invariant. -/
theorem stepIR_preserves (s : IRValueState) (e : IREvent) (s2 : IRValueState)
    (hinv : ScopeInv s) (h : stepIR s e = some (.ok s2)) : ScopeInv s2 := by
  cases e with
  | useOperand idx =>
    cases hop : parseOperandIdx s idx with
    | none =>
      simp only [stepIR, hop] at h
      exact Option.noConfusion h
    | some r =>
      cases r with
      | error msg =>
        simp only [stepIR, hop] at h
        simp at h
      | ok p =>
        simp only [stepIR, hop, Option.some.injEq, Except.ok.injEq] at h
        subst h
        exact parseOperandIdx_preserves s idx p.1 p.2 hinv
          (by rw [hop])
  | defineOp rs => exact defineValues_preserves s rs s2 hinv h

/-- The event loop preserves the single-scope invariant. -/
theorem runIRCore_preserves (events : List IREvent) :
    ∀ s s2, ScopeInv s → runIRCore s events = some (.ok s2) → ScopeInv s2 := by
  induction events with
  | nil =>
    intro s s2 hinv h
    simp only [runIRCore, Option.some.injEq, Except.ok.injEq] at h
    subst h
    exact hinv
  | cons e es ih =>
    intro s s2 hinv h
    cases hstep : stepIR s e with
    | none =>
      simp only [runIRCore, hstep] at h
      exact Option.noConfusion h
    | some r =>
      cases r with
      | error msg =>
        simp only [runIRCore, hstep] at h
        simp at h
      | ok s3 =>
        simp only [runIRCore, hstep] at h
        exact ih s3 s2 (stepIR_preserves s e s3 hinv hstep) h

/-- The pushed region scope satisfies the invariant. -/
theorem initIRValueState_inv (numValues : Nat) :
    ScopeInv (initIRValueState numValues) := by
  refine ⟨⟨List.replicate numValues none, [0]⟩, 0, rfl, rfl, by simp, ?_, ?_,
    ?_, ?_, List.nodup_nil, List.nodup_nil, ?_, ?_, ?_⟩
  · intro i r hi
    rcases Nat.lt_or_ge i numValues with hlt2 | hge
    · rw [List.get?_eq_getElem?, List.getElem?_replicate, if_pos (by simpa)] at hi
      simp at hi
    · rw [List.get?_eq_none.2 (by simpa)] at hi
      cases hi
  · intro i hi
    omega
  · intro i f hi
    rcases Nat.lt_or_ge i numValues with hlt2 | hge
    · rw [List.get?_eq_getElem?, List.getElem?_replicate, if_pos (by simpa)] at hi
      simp at hi
    · rw [List.get?_eq_none.2 (by simpa)] at hi
      cases hi
  · intro i j f hi
    rcases Nat.lt_or_ge i numValues with hlt2 | hge
    · rw [List.get?_eq_getElem?, List.getElem?_replicate, if_pos (by simpa)] at hi
      simp at hi
    · rw [List.get?_eq_none.2 (by simpa)] at hi
      cases hi
  · intro f hf
    cases hf
  · intro f hf
    rcases hf with hf | hf
    · cases hf
    · cases hf
  · intro idx v hm
    cases hm

/-- **C1.** (i) A successful parse resolves every forward reference: each
recorded operand equals the value finally defined at the index it read —
a real definition's result, never a placeholder.  (ii) When a definition
fills a slot that held a placeholder, every use of the placeholder's
result is rewritten to the new value and the placeholder moves from the
active pool to the free pool.  (iii) If the active pool is non-empty after
the events, the parse fails with "not all forward unresolved forward
operand references". -/
theorem claim_C1_forward_references :
    (∀ numValues events s,
      runIREvents numValues events = some (.ok s) →
      s.forwardRefOps = [] ∧
      ∀ idx v, (idx, v) ∈ s.useSites →
        (∃ sc, s.valueScopes = [sc] ∧ sc.values.get? idx = some (some v)) ∧
        ∃ rid, v = MValue.real rid) ∧
    (∀ (s s2 : IRValueState) (sc : ValueScope) (scs : List ValueScope)
      (n : Nat) (ids : List Nat) (f r : Nat),
      s.valueScopes = sc :: scs → sc.nextValueIDs = n :: ids →
      sc.values.get? n = some (some (.fwd f)) →
      s.forwardRefOps.Nodup →
      defineValues s [r] = some (.ok s2) →
      f ∉ s2.forwardRefOps ∧ f ∈ s2.openForwardRefOps ∧
      (∀ idx, (idx, MValue.fwd f) ∈ s.useSites →
        (idx, MValue.real r) ∈ s2.useSites) ∧
      (∀ idx, (idx, MValue.fwd f) ∉ s2.useSites)) ∧
    (∀ numValues events s,
      runIRCore (initIRValueState numValues) events = some (.ok s) →
      s.forwardRefOps ≠ [] →
      runIREvents numValues events = some (.error fwdRefErr)) := by
  refine ⟨?_, ?_, ?_⟩
  · intro numValues events s h
    cases hcore : runIRCore (initIRValueState numValues) events with
    | none =>
      simp only [runIREvents, hcore] at h
      exact Option.noConfusion h
    | some r =>
      cases r with
      | error e =>
        simp only [runIREvents, hcore] at h
        simp at h
      | ok s0 =>
        simp only [runIREvents, hcore] at h
        by_cases hemp : s0.forwardRefOps.isEmpty = true
        · rw [if_pos hemp] at h
          simp only [Option.some.injEq, Except.ok.injEq] at h
          subst h
          have hinv := runIRCore_preserves events _ _
            (initIRValueState_inv numValues) hcore
          obtain ⟨sc, n, hsc, hids, hlen, hrup, hrdn, hfa, hinj, hna, hnf,
            hdisj, hlt, huse⟩ := hinv
          have hemp' : s0.forwardRefOps = [] := List.isEmpty_iff.1 hemp
          refine ⟨hemp', ?_⟩
          intro idx v hm
          have hslot := huse idx v hm
          refine ⟨⟨sc, hsc, hslot⟩, ?_⟩
          cases v with
          | real rid => exact ⟨rid, rfl⟩
          | fwd f =>
            have hmem := hfa idx f hslot
            rw [hemp'] at hmem
            cases hmem
        · rw [if_neg hemp] at h
          simp at h
  · intro s s2 sc scs n ids f r hsc hids hslot hnd h
    simp only [defineValues, hsc, hids] at h
    by_cases hif : n + [r].length > sc.values.length
    · rw [if_pos hif] at h
      simp at h
    · rw [if_neg hif] at h
      have hgo : defineValuesGo sc.values s.useSites s.forwardRefOps
          s.openForwardRefOps n [r] =
          some (sc.values.set n (some (.real r)),
            s.useSites.map
              (fun p => if p.2 = MValue.fwd f then (p.1, MValue.real r) else p),
            s.forwardRefOps.erase f, f :: s.openForwardRefOps, n + 1) := by
        simp only [defineValuesGo, hslot]
      rw [hgo] at h
      simp only [Option.some.injEq, Except.ok.injEq] at h
      subst h
      refine ⟨hnd.not_mem_erase, List.mem_cons_self f _, ?_, ?_⟩
      · intro idx hm
        exact List.mem_map.2 ⟨(idx, MValue.fwd f), hm, by simp⟩
      · intro idx hm
        obtain ⟨⟨i0, v0⟩, h0, hfn⟩ := List.mem_map.1 hm
        by_cases hv0 : v0 = MValue.fwd f
        · simp only [hv0, if_pos rfl] at hfn
          injection hfn with h1 h2
          cases h2
        · simp only [if_neg hv0] at hfn
          injection hfn with h1 h2
          exact hv0 h2
  · intro numValues events s hcore hne
    simp only [runIREvents, hcore]
    rw [if_neg]
    simp only [List.isEmpty_eq_true]
    exact hne

/-- Witness for C1: value id `1` is used before its definition; the run
succeeds, the placeholder pool ends empty, and the recorded operand is the
value later defined at index `1`. -/
theorem claim_C1_witness :
    ∃ s, runIREvents 2 [.useOperand 1, .defineOp [100], .defineOp [200]]
        = some (.ok s) ∧
      s.forwardRefOps = [] ∧
      ∃ sc, s.valueScopes = [sc] ∧
        sc.values.get? 1 = some (some (.real 200)) := by
  have hrun : runIREvents 2 [.useOperand 1, .defineOp [100], .defineOp [200]]
      = some (.ok ⟨[⟨[some (.real 100), some (.real 200)], [2]⟩], [], [0], 1,
        [(1, .real 200)]⟩) := by rfl
  have h := claim_C1_forward_references.1 2
    [.useOperand 1, .defineOp [100], .defineOp [200]] _ hrun
  have h2 := h.2 1 (MValue.real 200) (by simp)
  obtain ⟨⟨sc, hsc, hslot⟩, _⟩ := h2
  exact ⟨_, hrun, h.1, sc, hsc, hslot⟩

--===----------------------------------------------------------------------===--
-- Splice lemmas (C3)
--===----------------------------------------------------------------------===--

theorem spliceParsedOps_concat (pre : List MOp) (last : MOp)
    (parsed : List MOp) :
    spliceParsedOps (pre ++ [last]) parsed = pre ++ parsed ++ [last] := by
  induction pre with
  | nil => rfl
  | cons p pre ih =>
    cases pre with
    | nil => rfl
    | cons q pre2 =>
      show p :: spliceParsedOps ((q :: pre2) ++ [last]) parsed = _
      rw [ih]
      rfl

/-- **C3 counterexample.** For a non-empty target block whose last
operation is not a terminator, the code inserts the parsed operations
before that last operation, while the claim says they are appended at the
end: the two disagree already for a one-operation block. -/
theorem claim_C3_counterexample :
    spliceParsedOps [(⟨0, false⟩ : MOp)] [⟨1, false⟩] ≠
      spliceAppendSpec [⟨0, false⟩] [⟨1, false⟩] := by
  decide

/-- **C3 (amended).** On success the parsed top-level operations are
spliced into the target block at its end when the block is empty, and
immediately before the block's LAST operation otherwise — in particular
before the terminator whenever the block ends with one, in which case the
code agrees with the claim's description. -/
theorem claim_C3_splice_before_last (dest parsed : List MOp) :
    (dest = [] → spliceParsedOps dest parsed = parsed) ∧
    (∀ pre last, dest = pre ++ [last] →
      spliceParsedOps dest parsed = pre ++ parsed ++ [last]) ∧
    ((∀ last, dest.getLast? = some last → last.isTerminator = true) →
      spliceParsedOps dest parsed = spliceAppendSpec dest parsed) := by
  refine ⟨?_, ?_, ?_⟩
  · intro h
    subst h
    rfl
  · intro pre last h
    subst h
    exact spliceParsedOps_concat pre last parsed
  · intro hterm
    rcases List.eq_nil_or_concat dest with h | ⟨pre, last, h⟩
    · subst h
      rfl
    · rw [List.concat_eq_append] at h
      subst h
      have hl : (pre ++ [last]).getLast? = some last := by
        simp [List.getLast?_concat]
      have ht : last.isTerminator = true := hterm last hl
      rw [spliceParsedOps_concat]
      unfold spliceAppendSpec
      rw [hl]
      simp only [ht, if_true]
      rw [List.dropLast_concat]

/-- Witness for C3: a one-terminator target block, where the insertion
lands before the terminator and agrees with the spec's description. -/
theorem claim_C3_witness :
    spliceParsedOps [(⟨7, true⟩ : MOp)] [⟨1, false⟩] = [⟨1, false⟩, ⟨7, true⟩] ∧
    spliceParsedOps [(⟨7, true⟩ : MOp)] [⟨1, false⟩] =
      spliceAppendSpec [⟨7, true⟩] [⟨1, false⟩] := by
  have h := claim_C3_splice_before_last [⟨7, true⟩] [⟨1, false⟩]
  refine ⟨?_, ?_⟩
  · have h2 := h.2.1 [] ⟨7, true⟩ rfl
    simpa using h2
  · refine h.2.2 ?_
    intro last hl
    have : last = ⟨7, true⟩ := by
      simp [List.getLast?] at hl
      exact hl.symm
    subst this
    rfl

--===----------------------------------------------------------------------===--
-- The IR-section set-up order (C5) and the zero-slot top level (C8)
--===----------------------------------------------------------------------===--

/-- **C5 (code bug).** `parseIRSection` parses the module body's block
header BEFORE pushing the initial `ValueScope`, not after as the spec
prescribes: an IR section starting `0x03 0x01` (block header with
`has_args = true` and `num_ops = 0`, then `num_args = 0`) makes the block
header's `defineValues` call run on an EMPTY value-scope stack, so
`valueScopes.back()` is undefined behaviour — `none` in this model — and
the claim's non-empty-stack guarantee fails. -/
theorem claim_C5_scope_pushed_after_header :
    parseIRSectionStart (fun _ => true) (fun _ => true) [3, 1] = none := by
  rfl

/-- **C8.** After the top-level set-up, whose pushed scope reserves zero
value slots (the module frame's `numValues` keeps its default `0`),
defining the results of any top-level operation with at least one result
fails with the "value index range was outside of the expected range for
the parent region" error. -/
theorem claim_C8_toplevel_results_fail (resolveType resolveLoc : Nat → Bool)
    (bytes rest : List Nat) (numOps : Nat) (results : List Nat)
    (hhdr : parseVarIntWithFlag bytes = .ok ((numOps, false), rest))
    (hres : results ≠ []) :
    parseIRSectionStart resolveType resolveLoc bytes =
      some (.ok (numOps, ⟨[⟨[], [0]⟩], [], [], 0, []⟩, rest)) ∧
    defineValues ⟨[⟨[], [0]⟩], [], [], 0, []⟩ results =
      some (.error
        ("value index range was outside of the expected range for the parent region"
          ++ valueRangeErrDetail 0 (0 + results.length) 0)) := by
  constructor
  · rw [parseIRSectionStart, parseBlock, hhdr]
    rfl
  · match results, hres with
    | r :: rs, _ =>
      show defineValues ⟨[⟨[], [0]⟩], [], [], 0, []⟩ (r :: rs) = _
      simp only [defineValues]
      rw [if_pos (by simp)]
      rfl

/-- Witness for C8: the header byte `0x01` (zero ops, no arguments) and a
single-result operation. -/
theorem claim_C8_witness :
    parseIRSectionStart (fun _ => true) (fun _ => true) [1] =
      some (.ok (0, ⟨[⟨[], [0]⟩], [], [], 0, []⟩, [])) ∧
    defineValues ⟨[⟨[], [0]⟩], [], [], 0, []⟩ [42] =
      some (.error
        ("value index range was outside of the expected range for the parent region"
          ++ valueRangeErrDetail 0 (0 + [42].length) 0)) :=
  claim_C8_toplevel_results_fail (fun _ => true) (fun _ => true) [1] [] 0 [42]
    (by rfl) (by simp)

--===----------------------------------------------------------------------===--
-- Dialect loading (C6)
--===----------------------------------------------------------------------===--

theorem load_attempted (ctx : String → Option Nat) (allow : Bool)
    (d : BytecodeDialect) (st : Option Nat) (hd : d.dialect = some st) :
    BytecodeDialect.load ctx allow d = ⟨d, none, 0⟩ := by
  unfold BytecodeDialect.load
  rw [hd]

theorem runLoads_attempted (ctx : String → Option Nat) (allow : Bool)
    (k : Nat) (d : BytecodeDialect) (st : Option Nat)
    (hd : d.dialect = some st) :
    runLoads ctx allow k d = ⟨d, none, 0⟩ := by
  induction k with
  | zero => rfl
  | succ k ih =>
    show runLoads ctx allow (k + 1) d = _
    rw [runLoads, load_attempted ctx allow d st hd]
    simp only
    rw [ih]
    rfl

/-- **C6.** Dialect loading happens at most once per entry and parse: a
previously attempted entry is returned unchanged with no host-context
consultation (so a resolved handle is stable across all later uses); a
fresh entry makes across any abort-on-failure sequence of uses at most one
`getOrLoadDialect` call; and once the first use succeeds — recording a
resolved or failed outcome — every later use returns the identical entry
without consulting the host again. -/
theorem claim_C6_dialect_load_once (ctx : String → Option Nat)
    (allowUnregistered : Bool) (name : String) (k : Nat)
    (d : BytecodeDialect) (st : Option Nat) (hd : d.dialect = some st) :
    BytecodeDialect.load ctx allowUnregistered d = ⟨d, none, 0⟩ ∧
    (runLoads ctx allowUnregistered k ⟨none, name⟩).hostLoads ≤ 1 ∧
    (∀ r : LoadResult,
      BytecodeDialect.load ctx allowUnregistered ⟨none, name⟩ = r →
      r.err = none →
      (∃ st2, r.entry.dialect = some st2) ∧
      runLoads ctx allowUnregistered k r.entry = ⟨r.entry, none, 0⟩) := by
  refine ⟨load_attempted ctx allowUnregistered d st hd, ?_, ?_⟩
  · cases k with
    | zero => simp [runLoads]
    | succ k =>
      rw [runLoads]
      unfold BytecodeDialect.load
      simp only
      by_cases hc : ctx name = none ∧ ¬ allowUnregistered = true
      · rw [if_pos hc]
      · rw [if_neg hc]
        simp only
        rw [runLoads_attempted ctx allowUnregistered k _ (ctx name) rfl]
        simp
  · intro r hr herr
    unfold BytecodeDialect.load at hr
    simp only at hr
    by_cases hc : ctx name = none ∧ ¬ allowUnregistered = true
    · rw [if_pos hc] at hr
      rw [← hr] at herr
      simp at herr
    · rw [if_neg hc] at hr
      rw [← hr]
      exact ⟨⟨ctx name, rfl⟩,
        runLoads_attempted ctx allowUnregistered k _ (ctx name) rfl⟩

/-- Witness for C6: a host context that resolves every name to handle `7`,
used three times. -/
theorem claim_C6_witness :
    BytecodeDialect.load (fun _ => some 7) true ⟨some (some 7), "arith"⟩ =
      ⟨⟨some (some 7), "arith"⟩, none, 0⟩ ∧
    (runLoads (fun _ => some 7) true 3 ⟨none, "arith"⟩).hostLoads ≤ 1 := by
  have h := claim_C6_dialect_load_once (fun _ => some 7) true "arith" 3
    ⟨some (some 7), "arith"⟩ (some 7) rfl
  exact ⟨h.1, h.2.1⟩

end BytecodeReaderModel
